import Mathlib

/-!
A verification development for the `ctenv` crate (`src/lib.rs`), a
compile-time `.env`-style configuration mechanism for Cargo build scripts.

The development shallowly embeds the two components of `ctenv::run`:

* the Config Locator: the upward directory walk that derives the path of
  the shared `.env` file from the `OUT_DIR` path (`lib.rs` lines 67-77);
* the Config Parser/Materializer: the line-by-line parsing of the `.env`
  file and the per-key artifact writes (`lib.rs` lines 79-109).

Filesystem paths are modelled as lists of path components (root first; the
filesystem root itself is the empty list), file contents as lists of
characters, and the package's private output directory as a finite map
from file name to file contents, represented as a function
`List Char → Option (List Char)`.
-/

namespace Ctenv

/-! ## Config Locator (lib.rs lines 67-77)

The Rust code is

```
let mut path = out_dir.clone();
while path.file_name().and_then(|os| os.to_str()) != Some("target") {
    path.pop();
}
path.pop();
path.push(".env");
```

`PathBuf::file_name` returns the last component (`none` at the root), and
`PathBuf::pop` removes the last component, doing nothing at the root.
The `while` loop is embedded with explicit fuel: `walkLoop fuel p`
returns `some q` if the loop exits within `fuel` iterations with `path = q`,
and `none` if `fuel` iterations did not reach the exit condition.
-/

/-- Rust `PathBuf::file_name`: the last path component, `none` for the root. -/
def fileName (p : List String) : Option String :=
  p.getLast?

/-- Rust `PathBuf::pop`: remove the last component; at the root (empty list)
this is a no-op, exactly as `PathBuf::pop` returns `false` and does nothing. -/
def popPath (p : List String) : List String :=
  p.dropLast

/-- The `while` loop of the locator, with explicit fuel. `none` means the
loop was still running after `fuel` iterations. -/
def walkLoop : Nat → List String → Option (List String)
  | 0, _ => none
  | fuel + 1, p =>
    if fileName p = some "target" then some p
    else walkLoop fuel (popPath p)

/-- The Config Locator (lib.rs 67-77): walk upward from `out_dir` until a
component named `target` is the last one, then drop it and append `.env`.
The locator never consults the filesystem: it neither checks that the
returned file exists nor that the directories do. -/
def locate (fuel : Nat) (out_dir : List String) : Option (List String) :=
  (walkLoop fuel out_dir).map (fun p => p.dropLast ++ [".env"])

/-! ### Lemmas about the walk -/

lemma walkLoop_concat_ne (fuel : Nat) (p : List String) (a : String)
    (ha : a ≠ "target") :
    walkLoop (fuel + 1) (p ++ [a]) = walkLoop fuel p := by
  have h1 : fileName (p ++ [a]) = some a := by
    simp [fileName, List.getLast?_concat]
  have h2 : popPath (p ++ [a]) = p := by
    simp [popPath, List.dropLast_concat]
  simp [walkLoop, h1, h2, ha]

lemma walkLoop_eq_none_of_not_mem (p : List String) (h : "target" ∉ p) :
    ∀ fuel, walkLoop fuel p = none := by
  intro fuel
  induction fuel generalizing p with
  | zero => rfl
  | succ n ih =>
    have hfn : fileName p ≠ some "target" := by
      intro hc
      obtain ⟨hne, heq⟩ :=
        List.mem_getLast?_eq_getLast (show "target" ∈ p.getLast? from hc)
      exact h (by rw [heq]; exact List.getLast_mem hne)
    have hsub : "target" ∉ popPath p := by
      intro hc
      exact h (List.dropLast_subset p hc)
    simp only [walkLoop, if_neg hfn]
    exact ih (popPath p) hsub

/-- Claim C1: the claim states that when no ancestor directory of the
build-output directory (itself included) is named `target`, the upward walk
terminates and `run` fails with a distinct lookup error. The code does the
opposite: the `while` loop of lib.rs lines 69-71 never exits, because at the
filesystem root `PathBuf::pop` is a no-op and `file_name()` stays `None`.
Formally, no amount of fuel makes the loop exit: `walkLoop` returns `none`
(still looping) at every fuel. This is the non-termination the spec's design
notes explicitly warn against, so the code, not the claim, is at fault. -/
theorem walkLoop_never_exits_without_target (p : List String)
    (h : "target" ∉ p) (fuel : Nat) : walkLoop fuel p = none :=
  walkLoop_eq_none_of_not_mem p h fuel

/-- Witness for C1's theorem at a concrete path with no `target` component:
even with fuel far exceeding the path length, the loop is still running. -/
theorem walkLoop_never_exits_without_target_witness :
    walkLoop 100 ["home", "user", "build"] = none :=
  walkLoop_never_exits_without_target ["home", "user", "build"] (by decide) 100

/-- Claim C7: when the build-output directory has an ancestor named `target`
(the directory itself included), the locator returns the path of the nearest
such ancestor's parent with `.env` appended. The decomposition
`pre ++ "target" :: suf` with `"target" ∉ suf` names exactly the nearest
(deepest) ancestor named `target`; its parent is `pre`. The locator consults
no filesystem state, so no existence check is (or can be) performed. -/
theorem locate_of_target_ancestor (pre suf : List String) (fuel : Nat)
    (hfuel : (pre ++ "target" :: suf).length ≤ fuel)
    (hsuf : "target" ∉ suf) :
    locate fuel (pre ++ "target" :: suf) = some (pre ++ [".env"]) := by
  induction fuel generalizing suf with
  | zero =>
    exfalso
    have : 0 < (pre ++ "target" :: suf).length := by simp
    omega
  | succ n ih =>
    rcases List.eq_nil_or_concat suf with rfl | ⟨ss, a, rfl⟩
    · have h1 : fileName (pre ++ ["target"]) = some "target" := by
        simp [fileName, List.getLast?_concat]
      simp [locate, walkLoop, h1, List.dropLast_concat]
    · simp only [List.concat_eq_append] at hsuf hfuel ⊢
      have ha : a ≠ "target" := by
        intro hc
        exact hsuf (by simp [hc])
      have hss : "target" ∉ ss := fun hc => hsuf (by simp [hc])
      have hassoc : pre ++ "target" :: (ss ++ [a])
          = (pre ++ "target" :: ss) ++ [a] := by simp
      have hlen : (pre ++ "target" :: ss).length ≤ n := by
        have := hfuel
        simp only [List.length_append, List.length_cons] at this ⊢
        omega
      have hw := walkLoop_concat_ne n (pre ++ "target" :: ss) a ha
      have := ih ss hlen hss
      simp only [locate] at this ⊢
      rw [hassoc, hw]
      exact this

/-- Witness for C7's theorem on a realistic Cargo `OUT_DIR`:
`/home/u/proj/target/debug/build/foo-1f2e/out` resolves to
`/home/u/proj/.env`. -/
theorem locate_of_target_ancestor_witness :
    locate 8 ["home", "u", "proj", "target", "debug", "build", "foo-1f2e", "out"]
      = some ["home", "u", "proj", ".env"] :=
  locate_of_target_ancestor ["home", "u", "proj"]
    ["debug", "build", "foo-1f2e", "out"] 8 (by decide) (by decide)

/-! ## Config Parser/Materializer (lib.rs lines 79-109)

The Rust code iterates over `fs::read_to_string(&dotenv)?.lines().enumerate()`:

```
for (i, line) in contents.lines().enumerate() {
    if line.starts_with("#") { continue; }
    let (krate, key, value) = (|| -> Option<_> {
        let mut parts = line.splitn(2, ':');
        let krate = parts.next()?;
        let key_value = parts.next()?;
        let mut parts = key_value.splitn(2, '=');
        let key = parts.next()?;
        let value = parts.next()?;
        Some((krate, key, value))
    })().ok_or(ParseError { line: i + 1 })?;
    if krate == pkg_name { fs::write(out_dir.join(key), value)?; }
}
println!("cargo:rerun-if-changed=...");
```

Strings are embedded as `List Char`. The private output directory is a map
from file name to file contents; `fs::write` always succeeds in the model
(I/O failures are environmental and outside the embedding).
-/

/-- Rust `s.splitn(2, sep)` viewed through the two `parts.next()?` calls:
`some (before, after)` when `sep` occurs in the string (split at the first
occurrence), `none` when it does not (the second `next()` returns `None`). -/
def splitFirst (sep : Char) : List Char → Option (List Char × List Char)
  | [] => none
  | c :: cs =>
    if c = sep then some ([], cs)
    else (splitFirst sep cs).map (fun p => (c :: p.1, p.2))

/-- The poor man's try block of lib.rs lines 86-98: split the line at the
first `:`, then split the remainder at the first `=`. `none` exactly when
the line has no `:` or no `=` after the first `:`. -/
def parseLine (line : List Char) : Option (List Char × List Char × List Char) :=
  match splitFirst ':' line with
  | none => none
  | some (krate, keyValue) =>
    match splitFirst '=' keyValue with
    | none => none
    | some (key, value) => some (krate, key, value)

/-- Rust `line.starts_with("#")` (lib.rs line 80). -/
def isComment (line : List Char) : Bool :=
  match line with
  | '#' :: _ => true
  | _ => false

/-- The package's private output directory: file name to file contents. -/
def FS : Type := List Char → Option (List Char)

/-- Rust `fs::write(out_dir.join(key), value)` (lib.rs line 104):
create or overwrite the file named `key` with contents `value`. -/
def fsWrite (key value : List Char) (fs : FS) : FS :=
  fun k => if k = key then some value else fs k

/-- The empty output directory. -/
def fsEmpty : FS := fun _ => none

/-- The `for` loop of lib.rs lines 79-106. `idx` is the 0-based index of
the first line of `lines` within the whole file (`enumerate`'s counter).
Returns the final directory state and `some n` when a parse error aborted
the loop at 1-based line `n` (writes made before the error persist), or
`none` when every line was processed. -/
def processLines (pkg : List Char) : List (List Char) → Nat → FS → FS × Option Nat
  | [], _, fs => (fs, none)
  | line :: rest, idx, fs =>
    if isComment line then
      processLines pkg rest (idx + 1) fs
    else
      match parseLine line with
      | none => (fs, some (idx + 1))
      | some (krate, key, value) =>
        processLines pkg rest (idx + 1)
          (if krate = pkg then fsWrite key value fs else fs)

/-! ### Rust `str::lines`

`lines()` splits at `\n`, strips one `\r` before a stripped `\n`, and does
not yield a final empty line for a trailing line terminator. -/

/-- Split a character list at every newline character (plain splitting:
a trailing newline yields a trailing empty chunk). -/
def splitOnNl : List Char → List (List Char)
  | [] => [[]]
  | c :: cs =>
    if c = '\n' then [] :: splitOnNl cs
    else
      match splitOnNl cs with
      | [] => [[c]]
      | l :: ls => (c :: l) :: ls

/-- Strip one trailing carriage return, as `lines()` does on every
newline-terminated chunk. -/
def stripCR (l : List Char) : List Char :=
  if l.getLast? = some '\x0d' then l.dropLast else l

/-- Apply a function to every element except the last one. -/
def mapInit (f : List Char → List Char) : List (List Char) → List (List Char)
  | [] => []
  | [l] => [l]
  | l :: rest => f l :: mapInit f rest

/-- Rust `str::lines` on the file contents: the final chunk is dropped when
it stems from a trailing newline, and is otherwise exempt from carriage
return stripping (it was not newline-terminated). -/
def rustLines (s : List Char) : List (List Char) :=
  if s = [] then []
  else if s.getLast? = some '\n' then ((splitOnNl s).dropLast).map stripCR
  else mapInit stripCR (splitOnNl s)

/-- Outcome of `ctenv::run` on an already-read file: the final state of the
output directory, the parse error (1-based line) if any, and how many
`cargo:rerun-if-changed` directives were printed. -/
structure RunResult where
  fs : FS
  error : Option Nat
  rerunDirectives : Nat

/-- `ctenv::run` (lib.rs lines 79-111) after the locator and the file read:
process every line; on a parse error return early (the `?` on `ok_or`)
without printing anything; on success print the single
`cargo:rerun-if-changed` directive (lib.rs line 109). -/
def run (pkg content : List Char) (fs : FS) : RunResult :=
  match processLines pkg (rustLines content) 0 fs with
  | (fs1, some n) => ⟨fs1, some n, 0⟩
  | (fs1, none) => ⟨fs1, none, 1⟩

@[simp] lemma run_fs (pkg content : List Char) (fs : FS) :
    (run pkg content fs).fs = (processLines pkg (rustLines content) 0 fs).1 := by
  unfold run
  cases hp : processLines pkg (rustLines content) 0 fs with
  | mk fs1 e => cases e <;> rfl

@[simp] lemma run_error (pkg content : List Char) (fs : FS) :
    (run pkg content fs).error = (processLines pkg (rustLines content) 0 fs).2 := by
  unfold run
  cases hp : processLines pkg (rustLines content) 0 fs with
  | mk fs1 e => cases e <;> rfl

/-! ### Parsing splits at the first delimiters (C2) -/

lemma splitFirst_append (sep : Char) (pre post : List Char) (h : sep ∉ pre) :
    splitFirst sep (pre ++ sep :: post) = some (pre, post) := by
  induction pre with
  | nil => simp [splitFirst]
  | cons c cs ih =>
    have hc : c ≠ sep := fun hc => h (by simp [hc])
    have h' : sep ∉ cs := fun hm => h (by simp [hm])
    simp [splitFirst, hc, ih h']

/-- Claim C2: a line of the shape `owner ':' key '=' value`, where `owner`
has no `:` and `key` has no `=`, parses to exactly that triple; `value` is
the entire remainder of the line and is unconstrained, so it may contain
further `=` (and `:`) characters. -/
theorem parseLine_splits (owner key value : List Char)
    (howner : ':' ∉ owner) (hkey : '=' ∉ key) :
    parseLine (owner ++ ':' :: (key ++ '=' :: value)) = some (owner, key, value) := by
  simp [parseLine, splitFirst_append ':' owner _ howner,
    splitFirst_append '=' key value hkey]

/-- Witness for C2's theorem on the spec's own example: `foo:KEY=a=b=c`
parses to owner `foo`, key `KEY`, value `a=b=c`. -/
theorem parseLine_splits_witness :
    parseLine ['f', 'o', 'o', ':', 'K', 'E', 'Y', '=', 'a', '=', 'b', '=', 'c']
      = some (['f', 'o', 'o'], ['K', 'E', 'Y'], ['a', '=', 'b', '=', 'c']) :=
  parseLine_splits ['f', 'o', 'o'] ['K', 'E', 'Y'] ['a', '=', 'b', '=', 'c']
    (by decide) (by decide)

/-! ### Entries of other owners are skipped (C5) -/

/-- Claim C5: a well-formed line whose owner differs from the current
package identifier (exact string inequality) is skipped: processing
continues on the remaining lines with the output directory unchanged, so
no artifact is created from the entry. -/
theorem entry_other_owner_skipped (pkg krate key value line : List Char)
    (rest : List (List Char)) (idx : Nat) (fs : FS)
    (hcomment : isComment line = false)
    (hparse : parseLine line = some (krate, key, value))
    (hne : krate ≠ pkg) :
    processLines pkg (line :: rest) idx fs = processLines pkg rest (idx + 1) fs := by
  simp [processLines, hcomment, hparse, hne]

/-- Witness for C5's theorem: the line `bar:K=9` is skipped when the
current package is `foo`. -/
theorem entry_other_owner_skipped_witness :
    processLines ['f', 'o', 'o'] [['b', 'a', 'r', ':', 'K', '=', '9']] 0 fsEmpty
      = processLines ['f', 'o', 'o'] [] 1 fsEmpty :=
  entry_other_owner_skipped ['f', 'o', 'o'] ['b', 'a', 'r'] ['K'] ['9']
    ['b', 'a', 'r', ':', 'K', '=', '9'] [] 0 fsEmpty
    (by decide) (by decide) (by decide)

/-! ### Comment lines are skipped (C6) -/

/-- Claim C6: a line whose first character is `#` is skipped whatever its
remaining content: it writes nothing, contributes no entry and cannot raise
a parse error, and the line counter still advances by one, so the 1-based
numbers reported for other lines are unchanged. -/
theorem comment_line_skipped (pkg cs : List Char)
    (rest : List (List Char)) (idx : Nat) (fs : FS) :
    processLines pkg (('#' :: cs) :: rest) idx fs
      = processLines pkg rest (idx + 1) fs := by
  simp [processLines, isComment]

/-! ### Malformed lines abort the run (C4, C10) -/

lemma processLines_append_error (pkg : List Char) (pre : List (List Char))
    (line : List Char) (post : List (List Char)) (idx : Nat) (fs : FS)
    (hpre : ∀ l ∈ pre, isComment l = true ∨ parseLine l ≠ none)
    (hline : isComment line = false) (hparse : parseLine line = none) :
    processLines pkg (pre ++ line :: post) idx fs
      = ((processLines pkg pre idx fs).1, some (idx + pre.length + 1)) := by
  induction pre generalizing idx fs with
  | nil => simp [processLines, hline, hparse]
  | cons l ls ih =>
    have hrest : ∀ x ∈ ls, isComment x = true ∨ parseLine x ≠ none :=
      fun x hx => hpre x (by simp [hx])
    cases hcom : isComment l with
    | true =>
      have step : processLines pkg ((l :: ls) ++ line :: post) idx fs
          = processLines pkg (ls ++ line :: post) (idx + 1) fs := by
        simp [processLines, hcom]
      have step2 : processLines pkg (l :: ls) idx fs
          = processLines pkg ls (idx + 1) fs := by
        simp [processLines, hcom]
      rw [step, ih (idx + 1) _ hrest, step2]
      have hn : idx + 1 + ls.length + 1 = idx + (l :: ls).length + 1 := by
        simp only [List.length_cons]
        omega
      rw [hn]
    | false =>
      have hp : parseLine l ≠ none := by
        rcases hpre l (by simp) with hc | hp
        · rw [hcom] at hc; cases hc
        · exact hp
      obtain ⟨t, ht⟩ := Option.ne_none_iff_exists'.mp hp
      obtain ⟨kr, ky, v⟩ := t
      have step : processLines pkg ((l :: ls) ++ line :: post) idx fs
          = processLines pkg (ls ++ line :: post) (idx + 1)
              (if kr = pkg then fsWrite ky v fs else fs) := by
        simp [processLines, hcom, ht]
      have step2 : processLines pkg (l :: ls) idx fs
          = processLines pkg ls (idx + 1)
              (if kr = pkg then fsWrite ky v fs else fs) := by
        simp [processLines, hcom, ht]
      rw [step, ih (idx + 1) _ hrest, step2]
      have hn : idx + 1 + ls.length + 1 = idx + (l :: ls).length + 1 := by
        simp only [List.length_cons]
        omega
      rw [hn]

/-- Claim C4: when processing reaches a non-comment line that lacks a `:`
or lacks an `=` after its first `:` (every earlier line being a comment or
well formed, so that the loop indeed reaches it), `run` fails immediately
with the parse error carrying that line's 1-based number, prints no rebuild
directive, and the output directory holds exactly the artifacts written by
the earlier lines: nothing from the offending line or any later line, and
no rollback of earlier writes. -/
theorem malformed_line_aborts (pkg content line : List Char) (fs : FS)
    (pre post : List (List Char))
    (hsplit : rustLines content = pre ++ line :: post)
    (hpre : ∀ l ∈ pre, isComment l = true ∨ parseLine l ≠ none)
    (hline : isComment line = false) (hparse : parseLine line = none) :
    (run pkg content fs).error = some (pre.length + 1) ∧
    (run pkg content fs).rerunDirectives = 0 ∧
    (run pkg content fs).fs = (processLines pkg pre 0 fs).1 := by
  have h := processLines_append_error pkg pre line post 0 fs hpre hline hparse
  rw [← hsplit] at h
  refine ⟨?_, ?_, ?_⟩
  · rw [run_error, h]
    simp
  · unfold run
    rw [h]
  · rw [run_fs, h]

/-- Witness for C4's theorem: in the file `foo:A=1` / `bad` / `foo:B=2`
the second line is malformed; the run reports line 2, prints no directive,
and the directory holds the write from line 1 only. -/
theorem malformed_line_aborts_witness :
    (run ['f', 'o', 'o']
        ['f', 'o', 'o', ':', 'A', '=', '1', '\n', 'b', 'a', 'd', '\n',
          'f', 'o', 'o', ':', 'B', '=', '2'] fsEmpty).error = some 2 ∧
    (run ['f', 'o', 'o']
        ['f', 'o', 'o', ':', 'A', '=', '1', '\n', 'b', 'a', 'd', '\n',
          'f', 'o', 'o', ':', 'B', '=', '2'] fsEmpty).rerunDirectives = 0 ∧
    (run ['f', 'o', 'o']
        ['f', 'o', 'o', ':', 'A', '=', '1', '\n', 'b', 'a', 'd', '\n',
          'f', 'o', 'o', ':', 'B', '=', '2'] fsEmpty).fs
      = (processLines ['f', 'o', 'o'] [['f', 'o', 'o', ':', 'A', '=', '1']] 0 fsEmpty).1 :=
  malformed_line_aborts ['f', 'o', 'o']
    ['f', 'o', 'o', ':', 'A', '=', '1', '\n', 'b', 'a', 'd', '\n',
      'f', 'o', 'o', ':', 'B', '=', '2']
    ['b', 'a', 'd'] fsEmpty
    [['f', 'o', 'o', ':', 'A', '=', '1']] [['f', 'o', 'o', ':', 'B', '=', '2']]
    (by decide) (by decide) (by decide) (by decide)

/-- Claim C10 (amended): a blank line is not a comment and does not parse
(it has no `:`), so when processing reaches it (every earlier line being a
comment or well formed) the run fails with the parse error carrying the
blank line's 1-based number. A trailing final newline produces no blank
line at all under Rust's line splitting, hence the exemption. -/
theorem blank_line_parse_error (pkg content : List Char) (fs : FS)
    (pre post : List (List Char))
    (hsplit : rustLines content = pre ++ ([] : List Char) :: post)
    (hpre : ∀ l ∈ pre, isComment l = true ∨ parseLine l ≠ none) :
    isComment ([] : List Char) = false ∧ parseLine ([] : List Char) = none ∧
    (run pkg content fs).error = some (pre.length + 1) := by
  refine ⟨rfl, rfl, ?_⟩
  have h := processLines_append_error pkg pre [] post 0 fs hpre rfl rfl
  rw [← hsplit] at h
  rw [run_error, h]
  simp

/-- Witness for C10's amended theorem: in `foo:A=1` / blank / `foo:B=2`
the blank second line is the reported parse error. -/
theorem blank_line_parse_error_witness :
    isComment ([] : List Char) = false ∧ parseLine ([] : List Char) = none ∧
    (run ['f', 'o', 'o']
        ['f', 'o', 'o', ':', 'A', '=', '1', '\n', '\n',
          'f', 'o', 'o', ':', 'B', '=', '2'] fsEmpty).error = some 2 :=
  blank_line_parse_error ['f', 'o', 'o']
    ['f', 'o', 'o', ':', 'A', '=', '1', '\n', '\n', 'f', 'o', 'o', ':', 'B', '=', '2']
    fsEmpty [['f', 'o', 'o', ':', 'A', '=', '1']] [['f', 'o', 'o', ':', 'B', '=', '2']]
    (by decide) (by decide)

/-- Counterexample to claim C10 as stated: the file
`nocolon` / blank / `foo:k=v` contains a blank line at 1-based number 2,
yet the run's parse error reports line 1 (the earlier malformed line), not
the blank line's number. -/
theorem blank_line_number_counterexample :
    rustLines ['n', 'o', 'c', 'o', 'l', 'o', 'n', '\n', '\n',
        'f', 'o', 'o', ':', 'k', '=', 'v']
      = [['n', 'o', 'c', 'o', 'l', 'o', 'n'], [],
          ['f', 'o', 'o', ':', 'k', '=', 'v']] ∧
    (run ['f', 'o', 'o']
        ['n', 'o', 'c', 'o', 'l', 'o', 'n', '\n', '\n',
          'f', 'o', 'o', ':', 'k', '=', 'v'] fsEmpty).error = some 1 ∧
    (1 : Nat) ≠ 2 := by decide

/-! ### Matching entries are materialized (C3) -/

/-- Whether processing the single line `l` writes the artifact file `key`
for package `pkg`: the line is no comment and parses to owner `pkg` and
key `key`. -/
def writesKeyB (pkg key l : List Char) : Bool :=
  !(isComment l) &&
    (match parseLine l with
     | some (kr, ky, _v) => decide (kr = pkg) && decide (ky = key)
     | none => false)

lemma ky_ne_of_writesKeyB_false (pkg key l kr ky v : List Char)
    (h : writesKeyB pkg key l = false) (hcom : isComment l = false)
    (ht : parseLine l = some (kr, ky, v)) (hkr : kr = pkg) : ky ≠ key := by
  intro hky
  subst hkr hky
  simp [writesKeyB, hcom, ht] at h

/-- Lines that never write `key` for `pkg` leave the artifact `key`
untouched, whether or not a later line aborts the loop. -/
lemma processLines_preserves_key (pkg key : List Char) :
    ∀ (lines : List (List Char)) (idx : Nat) (fs : FS),
      (∀ l ∈ lines, writesKeyB pkg key l = false) →
      ((processLines pkg lines idx fs).1) key = fs key := by
  intro lines
  induction lines with
  | nil => intro idx fs _; rfl
  | cons l ls ih =>
    intro idx fs h
    have hl := h l (by simp)
    have hrest : ∀ x ∈ ls, writesKeyB pkg key x = false :=
      fun x hx => h x (by simp [hx])
    cases hcom : isComment l with
    | true =>
      rw [show processLines pkg (l :: ls) idx fs = processLines pkg ls (idx + 1) fs
        from by simp [processLines, hcom]]
      exact ih (idx + 1) fs hrest
    | false =>
      cases ht : parseLine l with
      | none =>
        rw [show processLines pkg (l :: ls) idx fs = (fs, some (idx + 1))
          from by simp [processLines, hcom, ht]]
      | some t =>
        obtain ⟨kr, ky, v⟩ := t
        by_cases hkr : kr = pkg
        · have hky : key ≠ ky := by
            have := ky_ne_of_writesKeyB_false pkg key l kr ky v hl hcom ht hkr
            exact fun hc => this hc.symm
          rw [show processLines pkg (l :: ls) idx fs
              = processLines pkg ls (idx + 1) (fsWrite ky v fs)
            from by simp [processLines, hcom, ht, hkr]]
          rw [ih (idx + 1) _ hrest]
          simp [fsWrite, hky]
        · rw [show processLines pkg (l :: ls) idx fs
              = processLines pkg ls (idx + 1) fs
            from by simp [processLines, hcom, ht, hkr]]
          exact ih (idx + 1) fs hrest

/-- After an error-free loop, the artifact named by a matching entry's key
holds that entry's value, provided no later line writes the same key for
the same package. -/
lemma processLines_last_write (pkg key value : List Char) :
    ∀ (pre : List (List Char)) (line : List Char) (post : List (List Char))
      (idx : Nat) (fs : FS),
      isComment line = false →
      parseLine line = some (pkg, key, value) →
      (∀ l ∈ post, writesKeyB pkg key l = false) →
      (processLines pkg (pre ++ line :: post) idx fs).2 = none →
      ((processLines pkg (pre ++ line :: post) idx fs).1) key = some value := by
  intro pre
  induction pre with
  | nil =>
    intro line post idx fs hcom hp hpost _
    rw [show processLines pkg ([] ++ line :: post) idx fs
        = processLines pkg post (idx + 1) (fsWrite key value fs)
      from by simp [processLines, hcom, hp]]
    rw [processLines_preserves_key pkg key post (idx + 1) _ hpost]
    simp [fsWrite]
  | cons l ls ih =>
    intro line post idx fs hcom hp hpost herr
    cases hcoml : isComment l with
    | true =>
      have step : processLines pkg ((l :: ls) ++ line :: post) idx fs
          = processLines pkg (ls ++ line :: post) (idx + 1) fs := by
        simp [processLines, hcoml]
      rw [step] at herr ⊢
      exact ih line post (idx + 1) fs hcom hp hpost herr
    | false =>
      cases ht : parseLine l with
      | none =>
        have step : processLines pkg ((l :: ls) ++ line :: post) idx fs
            = (fs, some (idx + 1)) := by
          simp [processLines, hcoml, ht]
        rw [step] at herr
        cases herr
      | some t =>
        obtain ⟨kr, ky, v⟩ := t
        have step : processLines pkg ((l :: ls) ++ line :: post) idx fs
            = processLines pkg (ls ++ line :: post) (idx + 1)
                (if kr = pkg then fsWrite ky v fs else fs) := by
          simp [processLines, hcoml, ht]
        rw [step] at herr ⊢
        exact ih line post (idx + 1) _ hcom hp hpost herr

/-- Claim C3 (amended): in a well-formed file, for an entry whose owner is
the current package, after a successful run the artifact file named by the
entry's key holds exactly the entry's value — provided the entry is the
last line of the file writing that key for that package (later entries with
the same key overwrite earlier ones). The initial directory state `fs` is
arbitrary, so any pre-existing file of that name is overwritten. -/
theorem matching_entry_materialized (pkg key value content line : List Char)
    (fs : FS) (pre post : List (List Char))
    (hsplit : rustLines content = pre ++ line :: post)
    (hcom : isComment line = false)
    (hparse : parseLine line = some (pkg, key, value))
    (hpost : ∀ l ∈ post, writesKeyB pkg key l = false)
    (hok : (run pkg content fs).error = none) :
    (run pkg content fs).fs key = some value := by
  rw [run_error, hsplit] at hok
  rw [run_fs, hsplit]
  exact processLines_last_write pkg key value pre line post 0 fs hcom hparse hpost hok

/-- Witness for C3's theorem: running on the single-line file `foo:K=1`
with a pre-existing artifact `K` containing `old` overwrites it with `1`. -/
theorem matching_entry_materialized_witness :
    (run ['f', 'o', 'o'] ['f', 'o', 'o', ':', 'K', '=', '1']
        (fsWrite ['K'] ['o', 'l', 'd'] fsEmpty)).fs ['K'] = some ['1'] :=
  matching_entry_materialized ['f', 'o', 'o'] ['K'] ['1']
    ['f', 'o', 'o', ':', 'K', '=', '1'] ['f', 'o', 'o', ':', 'K', '=', '1']
    (fsWrite ['K'] ['o', 'l', 'd'] fsEmpty) [] []
    (by decide) (by decide) (by decide) (by simp) (by decide)

/-- Counterexample to claim C3 as stated: the well-formed file
`foo:K=1` / `foo:K=2` has an entry (line 1) with owner `foo` and value `1`,
the run for package `foo` succeeds, yet the artifact `K` contains `2`, not
that entry's value: with duplicate keys only the last matching entry's
value survives. -/
theorem matching_entry_materialized_counterexample :
    rustLines ['f', 'o', 'o', ':', 'K', '=', '1', '\n',
        'f', 'o', 'o', ':', 'K', '=', '2']
      = [['f', 'o', 'o', ':', 'K', '=', '1'], ['f', 'o', 'o', ':', 'K', '=', '2']] ∧
    parseLine ['f', 'o', 'o', ':', 'K', '=', '1']
      = some (['f', 'o', 'o'], ['K'], ['1']) ∧
    (run ['f', 'o', 'o']
        ['f', 'o', 'o', ':', 'K', '=', '1', '\n', 'f', 'o', 'o', ':', 'K', '=', '2']
        fsEmpty).error = none ∧
    (run ['f', 'o', 'o']
        ['f', 'o', 'o', ':', 'K', '=', '1', '\n', 'f', 'o', 'o', ':', 'K', '=', '2']
        fsEmpty).fs ['K'] = some ['2'] ∧
    (['2'] : List Char) ≠ ['1'] := by decide

/-! ### Idempotence (C8) -/

/-- The artifact write performed by one line, if any. -/
def lineWrite (pkg l : List Char) : Option (List Char × List Char) :=
  if isComment l then none
  else
    match parseLine l with
    | some (kr, ky, v) => if kr = pkg then some (ky, v) else none
    | none => none

/-- The value of the last write to `key` in a write list, if any. -/
def lastVal (key : List Char) : List (List Char × List Char) → Option (List Char)
  | [] => none
  | (k, v) :: rest =>
    match lastVal key rest with
    | some v' => some v'
    | none => if k = key then some v else none

/-- First-of-two-options fallback, spelled out for rewriting. -/
def orFallback (o d : Option (List Char)) : Option (List Char) :=
  match o with
  | some v => some v
  | none => d

/-- The parse error raised by the loop does not depend on the state of the
output directory. -/
lemma processLines_error_indep (pkg : List Char) :
    ∀ (lines : List (List Char)) (idx : Nat) (fs g : FS),
      (processLines pkg lines idx fs).2 = (processLines pkg lines idx g).2 := by
  intro lines
  induction lines with
  | nil => intro idx fs g; rfl
  | cons l ls ih =>
    intro idx fs g
    cases hcom : isComment l with
    | true => simp only [processLines, hcom]; exact ih (idx + 1) fs g
    | false =>
      cases ht : parseLine l with
      | none => simp [processLines, hcom, ht]
      | some t =>
        obtain ⟨kr, ky, v⟩ := t
        simp only [processLines, hcom, ht, Bool.false_eq_true, if_false]
        exact ih (idx + 1) _ _

/-- After an error-free loop the artifact `key` holds the last value
written to it, or its initial contents when no line writes it. -/
lemma processLines_fs_char (pkg key : List Char) :
    ∀ (lines : List (List Char)) (idx : Nat) (fs : FS),
      (processLines pkg lines idx fs).2 = none →
      ((processLines pkg lines idx fs).1) key
        = orFallback (lastVal key (lines.filterMap (lineWrite pkg))) (fs key) := by
  intro lines
  induction lines with
  | nil => intro idx fs _; rfl
  | cons l ls ih =>
    intro idx fs herr
    cases hcom : isComment l with
    | true =>
      have step : processLines pkg (l :: ls) idx fs
          = processLines pkg ls (idx + 1) fs := by
        simp [processLines, hcom]
      have hw : lineWrite pkg l = none := by simp [lineWrite, hcom]
      rw [step] at herr ⊢
      rw [List.filterMap_cons, hw]
      exact ih (idx + 1) fs herr
    | false =>
      cases ht : parseLine l with
      | none =>
        have step : processLines pkg (l :: ls) idx fs = (fs, some (idx + 1)) := by
          simp [processLines, hcom, ht]
        rw [step] at herr
        cases herr
      | some t =>
        obtain ⟨kr, ky, v⟩ := t
        by_cases hkr : kr = pkg
        · have step : processLines pkg (l :: ls) idx fs
              = processLines pkg ls (idx + 1) (fsWrite ky v fs) := by
            simp [processLines, hcom, ht, hkr]
          have hw : lineWrite pkg l = some (ky, v) := by
            simp [lineWrite, hcom, ht, hkr]
          rw [step] at herr ⊢
          rw [List.filterMap_cons, hw]
          rw [ih (idx + 1) _ herr]
          cases hlast : lastVal key (ls.filterMap (lineWrite pkg)) with
          | some v' => simp [lastVal, hlast, orFallback]
          | none =>
            by_cases hky : ky = key
            · subst hky
              simp [lastVal, hlast, orFallback, fsWrite]
            · have hky' : key ≠ ky := fun hc => hky hc.symm
              simp [lastVal, hlast, orFallback, fsWrite, hky, hky']
        · have step : processLines pkg (l :: ls) idx fs
              = processLines pkg ls (idx + 1) fs := by
            simp [processLines, hcom, ht, hkr]
          have hw : lineWrite pkg l = none := by
            simp [lineWrite, hcom, ht, hkr]
          rw [step] at herr ⊢
          rw [List.filterMap_cons, hw]
          exact ih (idx + 1) fs herr

/-- Claim C8: running the materializer twice against the same file contents
is idempotent. If the first run succeeds, the second run (started from the
directory state the first one left behind) succeeds as well and leaves
every artifact file with exactly the contents it had after the first run. -/
theorem run_idempotent (pkg content k : List Char) (fs : FS)
    (h : (run pkg content fs).error = none) :
    (run pkg content (run pkg content fs).fs).error = none ∧
    (run pkg content (run pkg content fs).fs).fs k = (run pkg content fs).fs k := by
  rw [run_error] at h
  have herr2 : (processLines pkg (rustLines content) 0
      ((processLines pkg (rustLines content) 0 fs).1)).2 = none := by
    rw [processLines_error_indep pkg (rustLines content) 0 _ fs]
    exact h
  constructor
  · rw [run_error, run_fs]
    exact herr2
  · simp only [run_fs]
    rw [processLines_fs_char pkg k (rustLines content) 0 _ herr2]
    rw [processLines_fs_char pkg k (rustLines content) 0 fs h]
    cases hlast : lastVal k ((rustLines content).filterMap (lineWrite pkg)) with
    | some v => simp [orFallback]
    | none => simp only [orFallback]

/-- Witness for C8's theorem: a second run over `foo:K=7` changes nothing
and still succeeds. -/
theorem run_idempotent_witness :
    (run ['f', 'o', 'o'] ['f', 'o', 'o', ':', 'K', '=', '7']
        (run ['f', 'o', 'o'] ['f', 'o', 'o', ':', 'K', '=', '7'] fsEmpty).fs).error
      = none ∧
    (run ['f', 'o', 'o'] ['f', 'o', 'o', ':', 'K', '=', '7']
        (run ['f', 'o', 'o'] ['f', 'o', 'o', ':', 'K', '=', '7'] fsEmpty).fs).fs ['K']
      = (run ['f', 'o', 'o'] ['f', 'o', 'o', ':', 'K', '=', '7'] fsEmpty).fs ['K'] :=
  run_idempotent ['f', 'o', 'o'] ['f', 'o', 'o', ':', 'K', '=', '7'] ['K'] fsEmpty
    (by decide)

/-! ### The rebuild directive is printed exactly on success (C9) -/

/-- Claim C9: the `cargo:rerun-if-changed` directive is printed exactly
once when every line was processed successfully, and not at all when `run`
returns an error (the `?` operator returns before the `println!`). -/
theorem rerun_directive_iff_success (pkg content : List Char) (fs : FS) :
    (run pkg content fs).rerunDirectives
      = if (run pkg content fs).error = none then 1 else 0 := by
  unfold run
  cases hp : processLines pkg (rustLines content) 0 fs with
  | mk fs1 e => cases e <;> rfl

end Ctenv
